import Mathlib

set_option linter.unusedSectionVars false

/-!
Shallow embedding of `neurocombat/algorithm.py` (the ComBat batch-correction
pipeline) and proofs about it.

Modelling conventions:
* numpy 2-D arrays are modelled by `Mat α`: explicit row/column counts plus a
  total entry function; entries outside the stated bounds are irrelevant.
* floating point numbers are modelled by an arbitrary `LinearOrderedField α`
  (instantiated with `ℚ` in concrete witnesses); `np.sqrt` is an explicit
  function parameter `sqrt : α → α` since square roots are not rational.
* the unbounded `while` loop of `it_sol` receives an explicit `fuel` bound and
  returns `Option`; `none` models a run that has not produced a value
  (non-termination, or the loop body never executing so that `g_new` is
  unbound).
* fallible Python operations (`raise ValueError`, `IndexError` from
  `np.where(...)[0][0]` on an empty index array) are modelled with `Except`.
-/

namespace NeuroCombat

/-- A numpy 2-D array: a rows/cols pair together with a total entry function.
Entries at indices outside `rows × cols` carry no information. -/
structure Mat (α : Type) where
  rows : ℕ
  cols : ℕ
  entry : ℕ → ℕ → α

variable {α : Type} [LinearOrderedField α] {β : Type}

/-- Models `M.T` (numpy transpose). -/
def Mat.transpose (M : Mat α) : Mat α :=
  ⟨M.cols, M.rows, fun i j => M.entry j i⟩

/-- Models `np.dot(A, B)` for 2-D arrays: sums over the columns of `A`. -/
def Mat.dot (A B : Mat α) : Mat α :=
  ⟨A.rows, B.cols, fun i j => ∑ k ∈ Finset.range A.cols, A.entry i k * B.entry k j⟩

/-- Elementwise subtraction `A - B` (shapes agree wherever it is used). -/
def Mat.sub (A B : Mat α) : Mat α :=
  ⟨A.rows, A.cols, fun i j => A.entry i j - B.entry i j⟩

/-- Elementwise addition `A + B`. -/
def Mat.add (A B : Mat α) : Mat α :=
  ⟨A.rows, A.cols, fun i j => A.entry i j + B.entry i j⟩

/-- Elementwise multiplication `A * B`. -/
def Mat.emul (A B : Mat α) : Mat α :=
  ⟨A.rows, A.cols, fun i j => A.entry i j * B.entry i j⟩

/-- Elementwise division `A / B`. -/
def Mat.ediv (A B : Mat α) : Mat α :=
  ⟨A.rows, A.cols, fun i j => A.entry i j / B.entry i j⟩

/-- Elementwise application of a scalar function (e.g. `**2`, `np.sqrt`). -/
def Mat.emap (f : α → α) (M : Mat α) : Mat α :=
  ⟨M.rows, M.cols, fun i j => f (M.entry i j)⟩

/-- Models `np.ones((r, c))`. -/
def onesMat (r c : ℕ) : Mat α :=
  ⟨r, c, fun _ _ => 1⟩

/-- Models the slice `M[:r, :]`. -/
def topRows (r : ℕ) (M : Mat α) : Mat α :=
  ⟨r, M.cols, M.entry⟩

/-- Models the slice `M[:, :c]`. -/
def takeCols (c : ℕ) (M : Mat α) : Mat α :=
  ⟨M.rows, c, M.entry⟩

/-- Models fancy column indexing `M[:, idxs]` with an integer index list. -/
def selectCols (M : Mat α) (idxs : List ℕ) : Mat α :=
  ⟨M.rows, idxs.length, fun i k => M.entry i (idxs.getD k 0)⟩

/-- Models fancy row indexing `M[idxs, :]` with an integer index list. -/
def selectRows (M : Mat α) (idxs : List ℕ) : Mat α :=
  ⟨idxs.length, M.cols, fun i j => M.entry (idxs.getD i 0) j⟩

/-- Models the fancy column assignment `M[:, idxs] = V`: column `idxs[k]`
receives column `k` of `V`; other columns are unchanged. -/
def updateColsM (M : Mat α) (idxs : List ℕ) (V : Mat α) : Mat α :=
  ⟨M.rows, M.cols, fun i j => if j ∈ idxs then V.entry i (idxs.indexOf j) else M.entry i j⟩

/-- Models reshaping a length-`n` vector (stored as a one-column matrix built
from a list) into an `(n, 1)` array. -/
def colMat (v : List α) : Mat α :=
  ⟨v.length, 1, fun i _ => v.getD i 0⟩

/-- Entry function of the minor of `f` obtained by deleting row `r` and
column `c`. -/
def minorF (f : ℕ → ℕ → α) (r c : ℕ) : ℕ → ℕ → α :=
  fun i j => f (if i < r then i else i + 1) (if j < c then j else j + 1)

/-- Determinant of the leading `n × n` block of `f`, by cofactor expansion
along the first row. -/
def detAux : ℕ → (ℕ → ℕ → α) → α
  | 0, _ => 1
  | n + 1, f =>
      ∑ j ∈ Finset.range (n + 1), (-1 : α) ^ j * f 0 j * detAux n (minorF f 0 j)

/-- Models `numpy.linalg.inv` on a square matrix via the adjugate formula.
numpy raises `LinAlgError` on a singular input; there this model instead
returns the (meaningless) zero-divided adjugate — no claim below depends on
the singular case. -/
def npInv (M : Mat α) : Mat α :=
  ⟨M.rows, M.rows, fun i j =>
    (1 / detAux M.rows M.entry) * (-1 : α) ^ (i + j) * detAux (M.rows - 1) (minorF M.entry j i)⟩

/-! ### List utilities modelling numpy functions on 1-D data -/

/-- Insert `x` into a (sorted) list, keeping order. -/
def insertSorted [LinearOrder β] (x : β) : List β → List β
  | [] => [x]
  | y :: ys => if x ≤ y then x :: y :: ys else y :: insertSorted x ys

/-- Insertion sort. -/
def sortList [LinearOrder β] (l : List β) : List β := l.foldr insertSorted []

/-- Models `np.unique(l)`: the distinct values of `l` in sorted order. -/
def uniqueSorted [LinearOrder β] (l : List β) : List β := (sortList l).dedup

/-- Models the `return_inverse` output of `np.unique(l, return_inverse=True)`:
for each element its index in the array of distinct values. -/
def npUniqueInv [LinearOrder β] (l : List β) : List ℕ :=
  l.map (fun x => (uniqueSorted l).indexOf x)

/-- Models `np.where(col == v)[0]`: the positions of `col` holding value `v`. -/
def whereEq [DecidableEq β] (col : List β) (v : β) : List ℕ :=
  (List.range col.length).filter (fun j => col.getD j v = v)

/-- Lines 73-82: the `batch_info` entry of `info_dict`, one index list per
distinct value of the (recoded) batch column. -/
def batchPartition [LinearOrder β] (col : List β) : List (List ℕ) :=
  (uniqueSorted col).map (whereEq col)

/-- Models `np.mean(l)` for a 1-D array. -/
def npMeanL (l : List α) : α := l.sum / (l.length : α)

/-- Models `np.var(l, ddof=d)` for a 1-D array: mean squared deviation with
denominator `len - ddof`. -/
def npVarL (ddof : ℕ) (l : List α) : α :=
  ((l.map (fun x => (x - npMeanL l) ^ 2)).sum) / ((l.length : α) - (ddof : α))

/-- Models `a.max()` for a nonempty 1-D array (numpy errors on an empty one;
the model returns `0` there). -/
def npMaxL (l : List α) : α := l.foldl max (l.headD 0)

/-- Row `i` of a matrix as a list of length `cols`. -/
def rowList (M : Mat α) (i : ℕ) : List α := (List.range M.cols).map (M.entry i)

/-- Column `c` of a 2-D object array stored as a list of rows
(models `Y[:, c]`). -/
def getCol (rows : List (List α)) (c : ℕ) : List α :=
  rows.map (fun r => r.getD c 0)

/-- Models the column assignment `Y[:, c] = v`. -/
def setCol (rows : List (List α)) (c : ℕ) (v : List α) : List (List α) :=
  rows.enum.map (fun p => p.2.set c (v.getD p.1 0))

/-! ### Error model and input model for `combat` -/

/-- The ways the `combat` entry point can fail in this model.
`notDataFrame` models the `ValueError` of lines 41-44 (its payload is the
structure the message says to construct); `indexError` models the
`IndexError` raised by `np.where(...)[0][0]` when a named column is absent
(lines 63-67); `singletonBatch` models the `ValueError` of lines 84-85;
`fuelOut` stands for a run of the unbounded `it_sol` loop that has not
terminated within the modelling fuel. -/
inductive CombatError where
  | notDataFrame (expected : String)
  | indexError
  | singletonBatch
  | fuelOut
  deriving DecidableEq

/-- A pandas DataFrame: named columns over sample-major rows. -/
structure DataFrame (α : Type) where
  columns : List String
  values : List (List α)

/-- The dynamically-typed `covars` argument: either a DataFrame or some
other (non-tabular) array-like value. -/
inductive CovarsInput (α : Type) where
  | df (d : DataFrame α)
  | raw (rows : List (List α))

/-- The dynamically-typed `discrete_cols` / `continuous_cols` argument:
either a bare string or a list of strings (a tuple behaves as a list). -/
inductive ColsArg where
  | strArg (s : String)
  | listArg (l : List String)

/-- Lines 45-48: a non-list, non-tuple argument is passed through `list(...)`;
for a string that yields the list of its one-character strings. -/
def normalizeCols : ColsArg → List String
  | .strArg s => s.toList.map (fun c => Char.toString c)
  | .listArg l => l

/-- Models `np.where(covar_labels == name)[0][0]` (lines 63-67): the first
index whose label equals `name`, or `IndexError` when there is none. -/
def firstIndex (labels : List String) (name : String) : Except CombatError ℕ :=
  match whereEq labels name with
  | [] => .error .indexError
  | j :: _ => .ok j

/-- Effectful `List.map` over `Except`, stopping at the first error; models a
Python list comprehension whose body can raise. -/
def mapExcept (f : β → Except CombatError γ) : List β → Except CombatError (List γ)
  | [] => .ok []
  | x :: xs =>
    match f x with
    | .error e => .error e
    | .ok y =>
      match mapExcept f xs with
      | .error e => .error e
      | .ok ys => .ok (y :: ys)

/-- The `info_dict` of lines 75-82 (the `batch_levels` entry is the recoded
list `0..n_batch-1` and is kept implicit). -/
structure InfoDict where
  n_batch : ℕ
  n_sample : ℕ
  sample_per_batch : List ℕ
  batch_info : List (List ℕ)

/-! ### The pipeline stages of `algorithm.py` -/

/-- Lines 137-143: `to_categorical(y, nb_classes)`, the one-hot matrix of the
integer codes `y`. -/
def to_categorical (y : List ℕ) (nb_classes : ℕ) : Mat α :=
  ⟨y.length, nb_classes, fun i j => if y.getD i 0 = j then 1 else 0⟩

/-- Models the slice `M[:, 1:]` dropping the first column. -/
def dropFirstCol (M : Mat α) : Mat α :=
  ⟨M.rows, M.cols - 1, fun i j => M.entry i (j + 1)⟩

/-- The all-zero matrix, used as the out-of-range default for block lists. -/
def zeroMat : Mat α := ⟨0, 0, fun _ _ => 0⟩

/-- Horizontal concatenation of two blocks. -/
def hstack2 (A B : Mat α) : Mat α :=
  ⟨A.rows, A.cols + B.cols, fun i j =>
    if j < A.cols then A.entry i j else B.entry i (j - A.cols)⟩

/-- Models `np.hstack`: the row count is the first block's (numpy requires all
blocks to agree, which holds at every use below). -/
def npHstack : List (Mat α) → Mat α
  | [] => ⟨0, 0, fun _ _ => 0⟩
  | [A] => A
  | A :: rest => hstack2 A (npHstack rest)

/-- Lines 147-151: the recoded batch column (`batch`) and its full one-hot
encoding (`batch_onehot`), `to_categorical(batch, len(np.unique(batch)))`. -/
def batchOneHot (Y : List (List α)) (batch_col : ℕ) : Mat α :=
  to_categorical (npUniqueInv (getCol Y batch_col))
    (uniqueSorted (npUniqueInv (getCol Y batch_col))).length

/-- Lines 153-157: the one-hot encoding of one discrete covariate with its
first column dropped (`cat_onehot = to_categorical(cat, ...)[:, 1:]`). -/
def catOneHot (Y : List (List α)) (c : ℕ) : Mat α :=
  dropFirstCol (to_categorical (npUniqueInv (getCol Y c))
    (uniqueSorted (npUniqueInv (getCol Y c))).length)

/-- Lines 159-163: one continuous covariate as a single float column
(`num.reshape(num.shape[0], 1)`). -/
def numColumn (Y : List (List α)) (c : ℕ) : Mat α := colMat (getCol Y c)

/-- Lines 120-166: `make_design_matrix(Y, batch_col, cat_cols, num_cols)`.
`Y` is the covariate object array (list of sample rows); `hstack_list` is
batch one-hot, then the discrete one-hots in order, then the continuous
columns in order. -/
def make_design_matrix (Y : List (List α)) (batch_col : ℕ)
    (cat_cols num_cols : List ℕ) : Mat α :=
  npHstack ([batchOneHot Y batch_col] ++ cat_cols.map (catOneHot Y) ++
    num_cols.map (numColumn Y))

/-- Line 187: the OLS coefficients
`B_hat = inv(design.T @ design) @ design.T @ X.T`. -/
def bHat (X design : Mat α) : Mat α :=
  ((npInv ((design.transpose).dot design)).dot design.transpose).dot X.transpose

/-- Models `design.copy()` followed by `tmp[:, :n_batch] = 0` (lines 195-196). -/
def zeroFirstCols (n : ℕ) (M : Mat α) : Mat α :=
  ⟨M.rows, M.cols, fun i j => if j < n then 0 else M.entry i j⟩

/-- Lines 169-202: `standardize_across_features(X, design, info_dict)`,
returning `(s_data, stand_mean, var_pooled)`. -/
def standardize_across_features (sqrt : α → α) (X design : Mat α)
    (info : InfoDict) : Mat α × Mat α × Mat α :=
  let n_batch := info.n_batch
  let n_sample := info.n_sample
  let B_hat := bHat X design
  let grand_mean :=
    (Mat.mk 1 n_batch
      (fun _ k => (info.sample_per_batch.getD k 0 : α) / (n_sample : α))).dot
      (topRows n_batch B_hat)
  let var_pooled :=
    ((X.sub ((design.dot B_hat).transpose)).emap (fun x => x ^ 2)).dot
      (Mat.mk n_sample 1 (fun _ _ => 1 / (n_sample : α)))
  let stand_mean :=
    ((grand_mean.transpose).dot (onesMat 1 n_sample)).add
      (((zeroFirstCols n_batch design).dot B_hat).transpose)
  let s_data :=
    (X.sub stand_mean).ediv ((var_pooled.emap sqrt).dot (onesMat 1 n_sample))
  (s_data, stand_mean, var_pooled)

/-- Lines 205-217: `aprior(gamma_hat)` — inverse-gamma shape hyperprior by
method of moments. -/
def aprior (gamma_hat : List α) : α :=
  let m := npMeanL gamma_hat
  let s2 := npVarL 1 gamma_hat
  (2 * s2 + m ^ 2) / s2

/-- Lines 220-232: `bprior(gamma_hat)` — inverse-gamma rate hyperprior by
method of moments. -/
def bprior (gamma_hat : List α) : α :=
  let m := npMeanL gamma_hat
  let s2 := npVarL 1 gamma_hat
  (m * s2 + m ^ 3) / s2

/-- Lines 235-249: `postmean(g_hat, g_bar, n, d_star, t2)`. -/
def postmean (g_hat g_bar n d_star t2 : α) : α :=
  (t2 * n * g_hat + d_star * g_bar) / (t2 * n + d_star)

/-- Lines 252-265: `postvar(sum2, n, a, b)` (the literal `0.5` is exactly
`1/2` in binary floating point). -/
def postvar (sum2 n a b : α) : α :=
  ((1 / 2) * sum2 + b) / (n / 2 + a - 1)

/-- The `LS_dict` of lines 268-301. -/
structure LSDict (α : Type) where
  gamma_hat : Mat α
  delta_hat : List (List α)
  gamma_bar : List α
  t2 : List α
  a_prior : List α
  b_prior : List α

/-- Lines 268-301: `fit_LS_model_and_find_priors(s_data, design, info_dict)`. -/
def fit_LS_model_and_find_priors (s_data design : Mat α) (info : InfoDict) :
    LSDict α :=
  let batch_design := takeCols info.n_batch design
  let gamma_hat :=
    ((npInv ((batch_design.transpose).dot batch_design)).dot
      batch_design.transpose).dot (s_data.transpose)
  let delta_hat := info.batch_info.map (fun idxs =>
    (List.range s_data.rows).map (fun i => npVarL 1 (rowList (selectCols s_data idxs) i)))
  let gamma_bar := (List.range gamma_hat.rows).map (fun i => npMeanL (rowList gamma_hat i))
  let t2 := (List.range gamma_hat.rows).map (fun i => npVarL 1 (rowList gamma_hat i))
  ⟨gamma_hat, delta_hat, gamma_bar, t2, delta_hat.map aprior, delta_hat.map bprior⟩

/-- Line 328 for one feature vector: `g_new = postmean(g_hat, g_bar, n, d_old, t2)`
(`n` is the per-feature non-NaN count, which is the batch width since the
model has no NaNs). -/
def gStep (g_hat : List α) (g_bar t2 n : α) (d_old : List α) (F : ℕ) : List α :=
  (List.range F).map (fun j => postmean (g_hat.getD j 0) g_bar n (d_old.getD j 0) t2)

/-- Lines 329-331: `sum2 = ((sdat - g_new ⊗ ones).^2).sum(axis=1)` and
`d_new = postvar(sum2, n, a, b)`. -/
def dStep (sdat : Mat α) (n a b : α) (g_new : List α) : List α :=
  (List.range sdat.rows).map (fun j =>
    postvar (∑ k ∈ Finset.range sdat.cols, (sdat.entry j k - g_new.getD j 0) ^ 2) n a b)

/-- Elementwise relative change `abs(new - old) / old` of line 333 — note the
denominator is the raw previous value, with no absolute value. -/
def relChange (new old : List α) : List α :=
  List.zipWith (fun x y => |x - y| / y) new old

/-- Lines 333-334: the loop's convergence metric
`change = max((abs(g_new-g_old)/g_old).max(), (abs(d_new-d_old)/d_old).max())`. -/
def changeOf (g_old d_old g_new d_new : List α) : α :=
  max (npMaxL (relChange g_new g_old)) (npMaxL (relChange d_new d_old))

/-- The `while change > conv` loop of lines 326-336, with explicit fuel.
Each pass computes `g_new`, `d_new` and `change`; the loop repeats while
`change > conv` and otherwise returns the last `(g_new, d_new)`. -/
def itSolGo (sdat : Mat α) (g_hat : List α) (g_bar t2 a b conv n : α) :
    ℕ → List α → List α → Option (List α × List α)
  | 0, _, _ => none
  | fuel + 1, g_old, d_old =>
    let g_new := gStep g_hat g_bar t2 n d_old sdat.rows
    let d_new := dStep sdat n a b g_new
    if changeOf g_old d_old g_new d_new > conv then
      itSolGo sdat g_hat g_bar t2 a b conv n fuel g_new d_new
    else
      some (g_new, d_new)

/-- Lines 304-340: `it_sol(sdat, g_hat, d_hat, g_bar, t2, a, b, conv)`.
The initial `change = 1` guard is modelled by the outer `if`: when
`conv ≥ 1` the Python loop body never runs and the `return` would hit an
unbound `g_new` (`none` here). -/
def it_sol (fuel : ℕ) (sdat : Mat α) (g_hat d_hat : List α)
    (g_bar t2 a b conv : α) : Option (List α × List α) :=
  let n : α := (sdat.cols : α)
  if (1 : α) > conv then itSolGo sdat g_hat g_bar t2 a b conv n fuel g_hat d_hat
  else none

/-- Effectful map over `Option`, stopping at the first `none`. -/
def mapOption (f : β → Option γ) : List β → Option (List γ)
  | [] => some []
  | x :: xs =>
    match f x with
    | none => none
    | some y =>
      match mapOption f xs with
      | none => none
      | some ys => some (y :: ys)

/-- Lines 343-367: `find_parametric_adjustments(s_data, LS, info_dict)`; the
default `conv=0.0001` of `it_sol` is exactly `1/10000` here. `none` models a
batch whose solver loop did not finish within `fuel`. -/
def find_parametric_adjustments (fuel : ℕ) (s_data : Mat α) (LS : LSDict α)
    (info : InfoDict) : Option (Mat α × Mat α) :=
  match mapOption (fun p : ℕ × List ℕ =>
      it_sol fuel (selectCols s_data p.2) (rowList LS.gamma_hat p.1)
        (LS.delta_hat.getD p.1 []) (LS.gamma_bar.getD p.1 0) (LS.t2.getD p.1 0)
        (LS.a_prior.getD p.1 0) (LS.b_prior.getD p.1 0) (1 / 10000))
    info.batch_info.enum with
  | none => none
  | some results =>
    some (⟨results.length, s_data.rows, fun i j => ((results.getD i ([], [])).1).getD j 0⟩,
          ⟨results.length, s_data.rows, fun i j => ((results.getD i ([], [])).2).getD j 0⟩)

/-- Lines 370-410: `adjust_data_final`. The per-batch loop rescales each
batch's columns in place; afterwards everything is rescaled by
`sqrt(var_pooled)` and recentred by `stand_mean`. -/
def adjust_data_final (sqrt : α → α) (s_data design gamma_star delta_star
    stand_mean var_pooled : Mat α) (info : InfoDict) : Mat α :=
  let batch_design := takeCols info.n_batch design
  let bayes1 := info.batch_info.enum.foldl (fun B p =>
    let dsq := colMat ((List.range delta_star.cols).map (fun f => sqrt (delta_star.entry p.1 f)))
    let denom := dsq.dot (onesMat 1 (info.sample_per_batch.getD p.1 0))
    let numer := (selectCols B p.2).sub (((selectRows batch_design p.2).dot gamma_star).transpose)
    updateColsM B p.2 (numer.ediv denom)) s_data
  let vpsq := colMat ((List.range var_pooled.rows).map (fun f => sqrt (var_pooled.entry f 0)))
  (bayes1.emul (vpsq.dot (onesMat 1 info.n_sample))).add stand_mean

/-- Lines 11-117: the `combat` entry point, parametrised by the design-matrix
builder so that theorems can state that some errors are raised before the
design matrix is ever constructed. The covariate coercion of lines 52-56
(best-effort cast of each column to float) is the identity here because model
covariate entries already live in `α`; `data` is taken as a matrix (the
DataFrame branch of lines 58-59 only converts to an array). -/
def combatGen (designFn : List (List α) → ℕ → List ℕ → List ℕ → Mat α)
    (sqrt : α → α) (fuel : ℕ) (data : Mat α) (covars : CovarsInput α)
    (batch_col : String) (discrete_cols continuous_cols : ColsArg) :
    Except CombatError (Mat α) :=
  match covars with
  | .raw _ => .error (.notDataFrame "pandas DataFrame")
  | .df df =>
    let d_names := normalizeCols discrete_cols
    let c_names := normalizeCols continuous_cols
    let covar_labels := df.columns
    let cov := df.values
    let X := data.transpose
    match firstIndex covar_labels batch_col with
    | .error e => .error e
    | .ok bcol =>
      match mapExcept (firstIndex covar_labels) d_names with
      | .error e => .error e
      | .ok cat_cols =>
        match mapExcept (firstIndex covar_labels) c_names with
        | .error e => .error e
        | .ok num_cols =>
          let codes := npUniqueInv (getCol cov bcol)
          let cov2 := setCol cov bcol (codes.map (fun k : ℕ => (k : α)))
          let col2 := getCol cov2 bcol
          let levels := uniqueSorted col2
          let counts := levels.map (fun v => (whereEq col2 v).length)
          let info : InfoDict :=
            ⟨levels.length, cov.length, counts, batchPartition col2⟩
          if counts.any (fun c => c == 1) then .error .singletonBatch
          else
            let design := designFn cov2 bcol cat_cols num_cols
            let std := standardize_across_features sqrt X design info
            let LS := fit_LS_model_and_find_priors std.1 design info
            match find_parametric_adjustments fuel std.1 LS info with
            | none => .error .fuelOut
            | some gd =>
              .ok ((adjust_data_final sqrt std.1 design gd.1 gd.2 std.2.1
                std.2.2 info).transpose)

/-- The `combat` function itself: `combatGen` with the real
`make_design_matrix`. -/
def combat (sqrt : α → α) (fuel : ℕ) (data : Mat α) (covars : CovarsInput α)
    (batch_col : String) (discrete_cols continuous_cols : ColsArg) :
    Except CombatError (Mat α) :=
  combatGen make_design_matrix sqrt fuel data covars batch_col discrete_cols
    continuous_cols

/-- Bool-valued success test on `combat`'s result. -/
def exceptOk : Except CombatError (Mat α) → Bool
  | .ok _ => true
  | .error _ => false

/-- The numpy `shape` of a successful result. -/
def resultShape (e : Except CombatError (Mat α)) : Option (ℕ × ℕ) :=
  e.toOption.map (fun m => (m.rows, m.cols))

/-! ### Definitions following the spec's wording, for comparison with the code -/

/-- Modelled from the spec's wording of the `it_sol` convergence metric
(claim C3): maximum over features of
`max(|g_new-g_old|/|g_old|, |d_new-d_old|/|d_old|)`, with absolute values in
both numerator and denominator. The code's metric is `changeOf`, whose
denominators carry no absolute value. -/
def specChangeMetric (g_old d_old g_new d_new : List α) : α :=
  max (npMaxL (List.zipWith (fun x y => |x - y| / |y|) g_new g_old))
      (npMaxL (List.zipWith (fun x y => |x - y| / |y|) d_new d_old))

/-- Modelled from the spec's wording (claim C5): the sample variance with
`ddof = 1`, written directly with denominator `n - 1`. -/
def specSampleVar (l : List α) : α :=
  ((l.map (fun x => (x - npMeanL l) ^ 2)).sum) / ((l.length : α) - 1)

/-! ### A small addressed-heap model for the covariate-mutation claim -/

/-- A heap of 2-D object arrays: an allocation counter and the contents of
each address. -/
structure Heap (α : Type) where
  next : ℕ
  mem : ℕ → List (List α)

/-- Allocate a fresh array holding `v`, returning its address. -/
def halloc (h : Heap α) (v : List (List α)) : ℕ × Heap α :=
  (h.next, ⟨h.next + 1, fun a => if a = h.next then v else h.mem a⟩)

/-- Overwrite the array at address `a` with `v`. -/
def hwrite (h : Heap α) (a : ℕ) (v : List (List α)) : Heap α :=
  ⟨h.next, fun x => if x = a then v else h.mem x⟩

/-- Lines 52-56: the per-column best-effort `astype('float32')`. Model
covariate entries already live in the numeric carrier `α`, so the cast is the
identity on the stored values; what matters for the mutation claim is where
the resulting write lands. -/
def coerceColumns (v : List (List α)) : List (List α) := v

/-- Lines 50-71 of `combat` as heap operations: `covars` is rebound to
`np.array(covars, dtype='object')` — a fresh copy (line 51) — and the
subsequent column-coercion writes (lines 52-56) and the batch-column
recoding write (lines 70-71) all target that copy. Returns the copy's
address and the final heap. -/
def combatCovarsSteps (h : Heap α) (dfAddr : ℕ) (bcol : ℕ) : ℕ × Heap α :=
  let p := halloc h (h.mem dfAddr)
  let h2 := hwrite p.2 p.1 (coerceColumns (p.2.mem p.1))
  let h3 := hwrite h2 p.1
    (setCol (h2.mem p.1) bcol
      ((npUniqueInv (getCol (h2.mem p.1) bcol)).map (fun k : ℕ => (k : α))))
  (p.1, h3)

/-! ### Concrete inputs used by the witness theorems -/

/-- A 4-sample, 2-feature data matrix used to exercise `combat` concretely. -/
def shapeWitnessData : Mat ℚ :=
  ⟨4, 2, fun i j => (([[0, 0], [2, 4], [3, 1], [-1, 3]] : List (List ℚ)).getD i []).getD j 0⟩

/-- A covariate table with a single batch column (two batches of two). -/
def shapeWitnessCovars : DataFrame ℚ :=
  ⟨["batch"], [[0], [0], [1], [1]]⟩

/-- A covariate table whose second batch has exactly one member. -/
def singletonWitnessCovars : DataFrame ℚ :=
  ⟨["site"], [[0], [0], [1]]⟩

/-- A covariate table with a batch column and two covariate columns. -/
def lookupWitnessCovars : DataFrame ℚ :=
  ⟨["batch", "age"], [[0, 10], [0, 11], [1, 12], [1, 13]]⟩

/-- A covariate array (4 samples): batch column 0 with 2 levels, a discrete
column 1 with 3 levels, a continuous column 2. -/
def designWitnessY : List (List ℚ) :=
  [[0, 10, 5], [1, 20, 6], [0, 10, 7], [1, 30, 8]]

/-! ### Shape lemmas for the matrix operations -/

@[simp] lemma transpose_rows (M : Mat α) : M.transpose.rows = M.cols := rfl

@[simp] lemma transpose_cols (M : Mat α) : M.transpose.cols = M.rows := rfl

@[simp] lemma dot_rows (A B : Mat α) : (A.dot B).rows = A.rows := rfl

@[simp] lemma dot_cols (A B : Mat α) : (A.dot B).cols = B.cols := rfl

@[simp] lemma sub_rows (A B : Mat α) : (A.sub B).rows = A.rows := rfl

@[simp] lemma sub_cols (A B : Mat α) : (A.sub B).cols = A.cols := rfl

@[simp] lemma add_rows (A B : Mat α) : (A.add B).rows = A.rows := rfl

@[simp] lemma add_cols (A B : Mat α) : (A.add B).cols = A.cols := rfl

@[simp] lemma emul_rows (A B : Mat α) : (A.emul B).rows = A.rows := rfl

@[simp] lemma emul_cols (A B : Mat α) : (A.emul B).cols = A.cols := rfl

@[simp] lemma ediv_rows (A B : Mat α) : (A.ediv B).rows = A.rows := rfl

@[simp] lemma ediv_cols (A B : Mat α) : (A.ediv B).cols = A.cols := rfl

@[simp] lemma emap_rows (f : α → α) (M : Mat α) : (M.emap f).rows = M.rows := rfl

@[simp] lemma emap_cols (f : α → α) (M : Mat α) : (M.emap f).cols = M.cols := rfl

@[simp] lemma updateColsM_rows (M : Mat α) (idxs : List ℕ) (V : Mat α) :
    (updateColsM M idxs V).rows = M.rows := rfl

@[simp] lemma updateColsM_cols (M : Mat α) (idxs : List ℕ) (V : Mat α) :
    (updateColsM M idxs V).cols = M.cols := rfl

@[simp] lemma standardize_sdata_rows (sqrt : α → α) (X design : Mat α) (info : InfoDict) :
    (standardize_across_features sqrt X design info).1.rows = X.rows := rfl

@[simp] lemma standardize_sdata_cols (sqrt : α → α) (X design : Mat α) (info : InfoDict) :
    (standardize_across_features sqrt X design info).1.cols = X.cols := rfl

/-- A fold whose step preserves the row count preserves it. -/
lemma foldl_rows_invariant {γ : Type} (l : List γ) (B : Mat α) (f : Mat α → γ → Mat α)
    (h : ∀ B x, (f B x).rows = B.rows) : (l.foldl f B).rows = B.rows := by
  induction l generalizing B with
  | nil => rfl
  | cons x xs ih => rw [List.foldl_cons, ih (f B x), h B x]

/-- A fold whose step preserves the column count preserves it. -/
lemma foldl_cols_invariant {γ : Type} (l : List γ) (B : Mat α) (f : Mat α → γ → Mat α)
    (h : ∀ B x, (f B x).cols = B.cols) : (l.foldl f B).cols = B.cols := by
  induction l generalizing B with
  | nil => rfl
  | cons x xs ih => rw [List.foldl_cons, ih (f B x), h B x]

lemma adjust_data_final_dims (sqrt : α → α) (s_data design gamma_star delta_star
    stand_mean var_pooled : Mat α) (info : InfoDict) :
    (adjust_data_final sqrt s_data design gamma_star delta_star stand_mean
        var_pooled info).rows = s_data.rows ∧
    (adjust_data_final sqrt s_data design gamma_star delta_star stand_mean
        var_pooled info).cols = s_data.cols := by
  unfold adjust_data_final
  dsimp only
  constructor
  · rw [add_rows, emul_rows]
    apply foldl_rows_invariant
    intro B x
    rfl
  · rw [add_cols, emul_cols]
    apply foldl_cols_invariant
    intro B x
    rfl

/-- Auxiliary for the shape theorem: any successful `combatGen` result is the
input matrix's shape, whatever design builder is used. -/
lemma combatGen_ok_dims (designFn : List (List α) → ℕ → List ℕ → List ℕ → Mat α)
    (sqrt : α → α) (fuel : ℕ) (data : Mat α) (covars : CovarsInput α)
    (batch_col : String) (dc cc : ColsArg) (M : Mat α)
    (h : combatGen designFn sqrt fuel data covars batch_col dc cc = .ok M) :
    M.rows = data.rows ∧ M.cols = data.cols := by
  unfold combatGen at h
  cases covars with
  | raw r => exact absurd h (by simp)
  | df df =>
    simp only at h
    split at h
    · exact absurd h (by simp)
    · split at h
      · exact absurd h (by simp)
      · split at h
        · exact absurd h (by simp)
        · split at h
          · exact absurd h (by simp)
          · split at h
            · exact absurd h (by simp)
            · rcases Except.ok.inj h with rfl
              rcases adjust_data_final_dims sqrt _ _ _ _ _ _ _ with ⟨hr, hc⟩
              constructor
              · simpa using hc
              · simpa using hr

/-- C1: for every input on which `combat` returns (a numeric matrix rather
than an error, and within the modelling fuel for its unbounded solver loop),
the returned matrix's shape equals the input data matrix's shape exactly —
the sample-by-feature orientation of the input is restored by the final
transpose. -/
theorem combat_output_shape (sqrt : α → α) (fuel : ℕ) (data : Mat α)
    (covars : CovarsInput α) (batch_col : String) (dc cc : ColsArg)
    (h : exceptOk (combat sqrt fuel data covars batch_col dc cc) = true) :
    resultShape (combat sqrt fuel data covars batch_col dc cc) =
      some (data.rows, data.cols) := by
  cases hc : combat sqrt fuel data covars batch_col dc cc with
  | error e =>
    rw [hc] at h
    exact absurd h (by simp [exceptOk])
  | ok M =>
    rcases combatGen_ok_dims make_design_matrix sqrt fuel data covars batch_col
      dc cc M hc with ⟨hr, hcl⟩
    show some (M.rows, M.cols) = some (data.rows, data.cols)
    rw [hr, hcl]

/-- C2: in `standardize_across_features`, the pooled variance of every
feature equals the mean squared residual of `X` against the full fitted
values `(design . B_hat)ᵀ`, divided by the total sample count `S` — a
population variance with denominator `S`, not `S - 1`. -/
theorem var_pooled_population_variance (sqrt : α → α) (X design : Mat α)
    (info : InfoDict) (i : ℕ) (hX : X.cols = info.n_sample) :
    (standardize_across_features sqrt X design info).2.2.entry i 0 =
      (∑ j ∈ Finset.range info.n_sample,
        (X.entry i j - ((design.dot (bHat X design)).transpose).entry i j) ^ 2) /
        (info.n_sample : α) := by
  unfold standardize_across_features
  dsimp only [Mat.dot, Mat.emap, Mat.sub, Mat.transpose]
  rw [hX, ← Finset.sum_mul, mul_one_div]

/-- Concrete 1-feature, 2-sample matrix for the pooled-variance witness. -/
theorem var_pooled_population_variance_witness :
    (standardize_across_features (fun x : ℚ => x) ⟨1, 2, fun _ _ => 1⟩
        ⟨2, 1, fun _ _ => 1⟩ ⟨1, 2, [2], [[0, 1]]⟩).2.2.entry 0 0 =
      (∑ j ∈ Finset.range 2,
        ((⟨1, 2, fun _ _ => 1⟩ : Mat ℚ).entry 0 j -
          (((⟨2, 1, fun _ _ => 1⟩ : Mat ℚ).dot
            (bHat ⟨1, 2, fun _ _ => 1⟩ ⟨2, 1, fun _ _ => 1⟩)).transpose).entry 0 j) ^ 2) / 2 :=
  var_pooled_population_variance (fun x : ℚ => x) ⟨1, 2, fun _ _ => 1⟩
    ⟨2, 1, fun _ _ => 1⟩ ⟨1, 2, [2], [[0, 1]]⟩ 0 rfl

/-- C5: in `fit_LS_model_and_find_priors`, the inverse-gamma scale prior of
every batch is computed in closed form: shape `a = (2 s2 + m ^ 2) / s2` and
rate `b = (m s2 + m ^ 3) / s2` where `m` and `s2` are the mean and the
sample variance (denominator `n - 1`, i.e. `ddof = 1`) of that batch's
`delta_hat` vector across features. -/
theorem scale_prior_closed_form (s_data design : Mat α) (info : InfoDict) :
    (fit_LS_model_and_find_priors s_data design info).a_prior =
      (fit_LS_model_and_find_priors s_data design info).delta_hat.map (fun v =>
        (2 * specSampleVar v + (npMeanL v) ^ 2) / specSampleVar v) ∧
    (fit_LS_model_and_find_priors s_data design info).b_prior =
      (fit_LS_model_and_find_priors s_data design info).delta_hat.map (fun v =>
        (npMeanL v * specSampleVar v + (npMeanL v) ^ 3) / specSampleVar v) := by
  have hv : ∀ v : List α, npVarL 1 v = specSampleVar v := by
    intro v
    simp [npVarL, specSampleVar]
  constructor
  · simp only [fit_LS_model_and_find_priors]
    exact List.map_congr_left (fun v _ => by rw [aprior, hv])
  · simp only [fit_LS_model_and_find_priors]
    exact List.map_congr_left (fun v _ => by rw [bprior, hv])

/-- C7: when `covars` is not a pandas DataFrame, `combat` raises the
validation error naming the expected structure as the very first action: for
every design builder, every data matrix and every other argument, the result
is that error and nothing else of the input is consulted. -/
theorem covars_type_validation (designFn : List (List α) → ℕ → List ℕ → List ℕ → Mat α)
    (sqrt : α → α) (fuel : ℕ) (data : Mat α) (rows : List (List α))
    (batch_col : String) (dc cc : ColsArg) :
    combatGen designFn sqrt fuel data (.raw rows) batch_col dc cc =
      .error (.notDataFrame "pandas DataFrame") ∧
    combat sqrt fuel data (.raw rows) batch_col dc cc =
      .error (.notDataFrame "pandas DataFrame") :=
  ⟨rfl, rfl⟩

/-- C9: `combat` does not mutate the caller-owned covariate table. Line 51
copies the DataFrame's storage into a freshly allocated array, and the
in-place writes of lines 52-56 (column coercion) and 70-71 (batch recoding)
land on that copy, so the caller's storage is unchanged afterwards. -/
theorem covars_not_mutated (h : Heap α) (dfAddr bcol : ℕ) (hlt : dfAddr < h.next) :
    (combatCovarsSteps h dfAddr bcol).2.mem dfAddr = h.mem dfAddr ∧
    (combatCovarsSteps h dfAddr bcol).1 ≠ dfAddr := by
  unfold combatCovarsSteps halloc hwrite
  dsimp only
  constructor
  · simp [Nat.ne_of_lt hlt]
  · exact ne_of_gt hlt

/-! ### List lemmas for the batch-partition and validation claims -/

lemma mem_insertSorted [LinearOrder β] (x a : β) (l : List β) :
    a ∈ insertSorted x l ↔ a = x ∨ a ∈ l := by
  induction l with
  | nil => simp [insertSorted]
  | cons y ys ih =>
    simp only [insertSorted]
    split
    · simp [List.mem_cons]
    · simp only [List.mem_cons, ih]
      tauto

lemma mem_sortList [LinearOrder β] (l : List β) (a : β) :
    a ∈ sortList l ↔ a ∈ l := by
  induction l with
  | nil => simp [sortList]
  | cons x xs ih =>
    simp only [sortList, List.foldr_cons, mem_insertSorted, List.mem_cons]
    rw [← sortList, ih]

lemma mem_uniqueSorted [LinearOrder β] (l : List β) (a : β) :
    a ∈ uniqueSorted l ↔ a ∈ l := by
  rw [uniqueSorted, List.mem_dedup, mem_sortList]

lemma nodup_uniqueSorted [LinearOrder β] (l : List β) :
    (uniqueSorted l).Nodup := List.nodup_dedup _

lemma mem_whereEq [DecidableEq β] (col : List β) (v : β) (j : ℕ) :
    j ∈ whereEq col v ↔ j < col.length ∧ col.getD j v = v := by
  simp [whereEq, List.mem_filter, List.mem_range]

/-- For an in-range index the default of `getD` is irrelevant. -/
lemma getD_default_irrel {γ : Type} (l : List γ) (j : ℕ) (d1 d2 : γ)
    (h : j < l.length) : l.getD j d1 = l.getD j d2 := by
  rw [List.getD_eq_getElem _ _ h, List.getD_eq_getElem _ _ h]

/-- An in-range `getD` is a member of the list. -/
lemma getD_mem_of_lt {γ : Type} (l : List γ) (j : ℕ) (d : γ)
    (h : j < l.length) : l.getD j d ∈ l := by
  rw [List.getD_eq_getElem _ _ h]
  exact List.getElem_mem h

/-- On a duplicate-free list containing `a`, exactly one element equals `a`. -/
lemma countP_eq_one_of_nodup {γ : Type} [DecidableEq γ] (L : List γ)
    (hnd : L.Nodup) (a : γ) (ha : a ∈ L) :
    L.countP (fun b => decide (b = a)) = 1 := by
  induction L with
  | nil => cases ha
  | cons x xs ih =>
    rcases List.mem_cons.mp ha with heq | hmem
    · subst heq
      rw [List.countP_cons_of_pos _ _ (by simp)]
      have hx : a ∉ xs := (List.nodup_cons.mp hnd).1
      have h0 : xs.countP (fun b => decide (b = a)) = 0 := by
        rw [List.countP_eq_zero]
        intro b hb
        simp only [decide_eq_true_eq]
        exact fun hba => hx (hba ▸ hb)
      rw [h0]
    · have hx : x ≠ a := fun hxa => (List.nodup_cons.mp hnd).1 (hxa ▸ hmem)
      rw [List.countP_cons_of_neg _ _ (by simp [hx])]
      exact ih (List.nodup_cons.mp hnd).2 hmem

/-- C8: the `batch_info` lists built at lines 73-82 (from any batch column)
are a partition of the sample indices: every sample index `j < S` belongs to
exactly one of the lists, and every listed index is a sample index. -/
theorem batch_info_partition (col : List α) (j : ℕ) (hj : j < col.length) :
    (batchPartition col).countP (fun l' => decide (j ∈ l')) = 1 ∧
    ∀ l' ∈ batchPartition col, ∀ i ∈ l', i < col.length := by
  constructor
  · rw [batchPartition, List.countP_map]
    have hcongr : ∀ v ∈ uniqueSorted col,
        (((fun l' => decide (j ∈ l')) ∘ whereEq col) v = true ↔
          decide (v = col.getD j 0) = true) := by
      intro v hv
      simp only [Function.comp, decide_eq_true_eq, mem_whereEq]
      constructor
      · rintro ⟨-, h2⟩
        rw [← h2]
        exact getD_default_irrel col j v 0 hj
      · intro h2
        refine ⟨hj, ?_⟩
        rw [getD_default_irrel col j v 0 hj, ← h2]
    rw [List.countP_congr hcongr]
    apply countP_eq_one_of_nodup _ (nodup_uniqueSorted col)
    rw [mem_uniqueSorted]
    exact getD_mem_of_lt col j 0 hj
  · intro l' hl' i hi
    rcases List.mem_map.mp hl' with ⟨v, -, rfl⟩
    exact ((mem_whereEq col v i).mp hi).1

lemma whereEq_cons {γ : Type} [DecidableEq γ] (x : γ) (xs : List γ) (v : γ) :
    whereEq (x :: xs) v =
      (if x = v then [0] else []) ++ (whereEq xs v).map Nat.succ := by
  rw [whereEq, List.length_cons, List.range_succ_eq_map, List.filter_cons]
  have hcomp : List.filter ((fun j => decide ((x :: xs).getD j v = v)) ∘ Nat.succ)
      (List.range xs.length) = whereEq xs v := by
    rw [whereEq]
    apply List.filter_congr
    intro j hj
    rfl
  rw [List.filter_map, hcomp]
  by_cases hxv : x = v
  · simp [hxv]
  · simp [hxv]

lemma whereEq_length_eq_count {γ : Type} [DecidableEq γ] (col : List γ) (v : γ) :
    (whereEq col v).length = col.count v := by
  induction col with
  | nil => rfl
  | cons x xs ih =>
    rw [whereEq_cons, List.length_append, List.length_map, ih, List.count_cons]
    by_cases hxv : x = v
    · simp [hxv, Nat.add_comm]
    · simp [hxv]

/-- Recoding by `np.unique(..., return_inverse=True)` preserves the
occurrence count of each present value. -/
lemma count_npUniqueInv {γ : Type} [LinearOrder γ] (l : List γ) (v : γ)
    (hv : v ∈ l) :
    (npUniqueInv l).count (List.indexOf v (uniqueSorted l)) = l.count v := by
  rw [npUniqueInv, List.count_eq_countP, List.countP_map, List.count_eq_countP]
  apply List.countP_congr
  intro x hx
  simp only [Function.comp, beq_iff_eq]
  exact List.indexOf_inj ((mem_uniqueSorted l x).mpr hx) ((mem_uniqueSorted l v).mpr hv)

lemma map_getD_range {γ : Type} (l : List γ) (d : γ) :
    (List.range l.length).map (fun i => l.getD i d) = l := by
  induction l with
  | nil => rfl
  | cons x xs ih =>
    rw [List.length_cons, List.range_succ_eq_map, List.map_cons, List.map_map]
    have hcomp : ((fun i => (x :: xs).getD i d) ∘ Nat.succ) = fun i => xs.getD i d := rfl
    rw [hcomp, ih]
    rfl

/-- Reading back the column just assigned by `setCol` yields the assigned
values (the table must be wide enough, as a rectangular DataFrame is). -/
lemma getCol_setCol (rows : List (List α)) (c : ℕ) (v : List α)
    (hrect : ∀ r ∈ rows, c < r.length) :
    getCol (setCol rows c v) c = (List.range rows.length).map (fun i => v.getD i 0) := by
  rw [getCol, setCol, List.map_map]
  have hmap : ∀ p ∈ rows.enum,
      ((fun r => r.getD c 0) ∘ fun p : ℕ × List α => p.2.set c (v.getD p.1 0)) p =
        ((fun i => v.getD i 0) ∘ Prod.fst) p := by
    intro p hp
    have hmem : p.2 ∈ rows := List.snd_mem_of_mem_enum hp
    have hc : c < (p.2.set c (v.getD p.1 0)).length := by
      rw [List.length_set]
      exact hrect p.2 hmem
    simp only [Function.comp]
    rw [List.getD_eq_getElem _ _ hc, List.getElem_set_self]
  rw [List.map_congr_left hmap, ← List.map_map, List.enum_map_fst]

lemma firstIndex_ok_of_mem (labels : List String) (name : String)
    (h : name ∈ labels) : ∃ j, firstIndex labels name = .ok j := by
  unfold firstIndex
  cases hw : whereEq labels name with
  | cons j js => exact ⟨j, rfl⟩
  | nil =>
    exfalso
    obtain ⟨i, hi, hget⟩ := List.getElem_of_mem h
    have hmem : i ∈ whereEq labels name := by
      rw [mem_whereEq]
      exact ⟨hi, by rw [List.getD_eq_getElem _ _ hi, hget]⟩
    rw [hw] at hmem
    cases hmem

lemma mapExcept_ok_forall (labels names : List String)
    (h : ∀ n ∈ names, n ∈ labels) :
    ∃ js, mapExcept (firstIndex labels) names = .ok js := by
  induction names with
  | nil => exact ⟨[], rfl⟩
  | cons x xs ih =>
    obtain ⟨j, hj⟩ := firstIndex_ok_of_mem labels x (h x (List.mem_cons_self x xs))
    obtain ⟨js, hjs⟩ := ih (fun n hn => h n (List.mem_cons_of_mem x hn))
    exact ⟨j :: js, by simp only [mapExcept, hj, hjs]⟩

/-- C6: if some batch of the covariate table has fewer than 2 members then
`combat` (with whatever design-matrix builder) stops with the singleton-batch
validation error, before the design matrix is constructed. -/
theorem singleton_batch_validation (sqrt : α → α) (fuel : ℕ) (data : Mat α)
    (df : DataFrame α) (batch_col : String) (dc cc : ColsArg) (bcol : ℕ)
    (hb : firstIndex df.columns batch_col = .ok bcol)
    (hrect : ∀ r ∈ df.values, bcol < r.length)
    (hd : ∀ n ∈ normalizeCols dc, n ∈ df.columns)
    (hc : ∀ n ∈ normalizeCols cc, n ∈ df.columns)
    (hs : ∃ v ∈ getCol df.values bcol, (getCol df.values bcol).count v < 2) :
    (∀ designFn, combatGen designFn sqrt fuel data (.df df) batch_col dc cc =
      .error .singletonBatch) ∧
    combat sqrt fuel data (.df df) batch_col dc cc = .error .singletonBatch := by
  have hmain : ∀ designFn, combatGen designFn sqrt fuel data (.df df) batch_col dc cc =
      .error .singletonBatch := by
    intro designFn
    obtain ⟨cs, hcs⟩ := mapExcept_ok_forall df.columns _ hd
    obtain ⟨ns, hns⟩ := mapExcept_ok_forall df.columns _ hc
    obtain ⟨v, hv, hcnt⟩ := hs
    have hpos : 0 < (getCol df.values bcol).count v := List.count_pos_iff.mpr hv
    have hc1 : (getCol df.values bcol).count v = 1 := by omega
    have hcodes : (npUniqueInv (getCol df.values bcol)).count
        (List.indexOf v (uniqueSorted (getCol df.values bcol))) = 1 := by
      rw [count_npUniqueInv _ _ hv, hc1]
    have hcol2 : getCol (setCol df.values bcol
        ((npUniqueInv (getCol df.values bcol)).map (fun k : ℕ => (k : α)))) bcol =
        (npUniqueInv (getCol df.values bcol)).map (fun k : ℕ => (k : α)) := by
      rw [getCol_setCol _ _ _ hrect]
      have hlen : df.values.length =
          ((npUniqueInv (getCol df.values bcol)).map (fun k : ℕ => (k : α))).length := by
        simp [npUniqueInv, getCol]
      rw [hlen, map_getD_range]
    have hcnt2 : (getCol (setCol df.values bcol
        ((npUniqueInv (getCol df.values bcol)).map (fun k : ℕ => (k : α)))) bcol).count
        ((List.indexOf v (uniqueSorted (getCol df.values bcol)) : ℕ) : α) = 1 := by
      rw [hcol2, List.count_map_of_injective _ _ Nat.cast_injective, hcodes]
    have hmem2 : ((List.indexOf v (uniqueSorted (getCol df.values bcol)) : ℕ) : α) ∈
        getCol (setCol df.values bcol
          ((npUniqueInv (getCol df.values bcol)).map (fun k : ℕ => (k : α)))) bcol := by
      apply List.count_pos_iff.mp
      rw [hcnt2]
      exact Nat.one_pos
    have hany : ((uniqueSorted (getCol (setCol df.values bcol
        ((npUniqueInv (getCol df.values bcol)).map (fun k : ℕ => (k : α)))) bcol)).map
          (fun w => (whereEq (getCol (setCol df.values bcol
            ((npUniqueInv (getCol df.values bcol)).map (fun k : ℕ => (k : α)))) bcol) w).length)).any
          (fun c => c == 1) = true := by
      apply List.any_eq_true.mpr
      refine ⟨1, List.mem_map.mpr ⟨_, (mem_uniqueSorted _ _).mpr hmem2, ?_⟩, by simp⟩
      rw [whereEq_length_eq_count, hcnt2]
    simp only [combatGen, hb, hcs, hns]
    rw [if_pos hany]
  exact ⟨hmain, hmain make_design_matrix⟩

lemma firstIndex_error_of_not_mem (labels : List String) (name : String)
    (h : name ∉ labels) : firstIndex labels name = .error .indexError := by
  unfold firstIndex
  cases hw : whereEq labels name with
  | nil => rfl
  | cons j js =>
    exfalso
    have hj : j ∈ whereEq labels name := by
      rw [hw]
      exact List.mem_cons_self j js
    rw [mem_whereEq] at hj
    refine h ?_
    rw [← hj.2]
    exact getD_mem_of_lt labels j name hj.1

lemma mapExcept_error_of_missing (labels names : List String)
    (h : ∃ n ∈ names, n ∉ labels) :
    mapExcept (firstIndex labels) names = .error .indexError := by
  induction names with
  | nil =>
    rcases h with ⟨n, hn, -⟩
    cases hn
  | cons x xs ih =>
    by_cases hx : x ∈ labels
    · rcases firstIndex_ok_of_mem labels x hx with ⟨j, hj⟩
      have hxs : ∃ n ∈ xs, n ∉ labels := by
        rcases h with ⟨n, hn, hnot⟩
        rcases List.mem_cons.mp hn with rfl | hmem
        · exact absurd hx hnot
        · exact ⟨n, hmem, hnot⟩
      simp only [mapExcept, hj, ih hxs]
    · simp only [mapExcept, firstIndex_error_of_not_mem labels x hx]

/-- C10: a bare-string `discrete_cols` / `continuous_cols` argument is split
by `list(...)` into the list of its individual characters (lines 45-48), so
a multi-character column name passed as a bare string whose characters are
not all column labels of `covars` makes the column lookup of lines 63-67
raise `IndexError` instead of treating the string as one column name. -/
theorem string_cols_split_to_chars (sqrt : α → α) (fuel : ℕ) (data : Mat α)
    (df : DataFrame α) (batch_col : String) (s : String) (bcol : ℕ)
    (hb : firstIndex df.columns batch_col = .ok bcol)
    (_hlen : 2 ≤ s.length)
    (hmiss : ¬ ∀ c ∈ s.toList, Char.toString c ∈ df.columns) :
    normalizeCols (.strArg s) = s.toList.map (fun c => Char.toString c) ∧
    (∀ cc, combat sqrt fuel data (.df df) batch_col (.strArg s) cc =
      .error .indexError) ∧
    (∀ dc, (∀ n ∈ normalizeCols dc, n ∈ df.columns) →
      combat sqrt fuel data (.df df) batch_col dc (.strArg s) =
        .error .indexError) := by
  have hmiss2 : ∃ c ∈ s.toList, Char.toString c ∉ df.columns := by
    push_neg at hmiss
    exact hmiss
  have herr : mapExcept (firstIndex df.columns) (normalizeCols (.strArg s)) =
      .error .indexError := by
    apply mapExcept_error_of_missing
    rcases hmiss2 with ⟨c, hc1, hc2⟩
    exact ⟨Char.toString c, List.mem_map.mpr ⟨c, hc1, rfl⟩, hc2⟩
  refine ⟨rfl, ?_, ?_⟩
  · intro cc
    simp only [combat, combatGen, hb, herr]
  · intro dc hdc
    obtain ⟨cs, hcs⟩ := mapExcept_ok_forall df.columns _ hdc
    simp only [combat, combatGen, hb, hcs, herr]

/-! ### Lemmas about `np.unique` level counts and `np.hstack` block layout -/

lemma uniqueSorted_length_eq_card {γ : Type} [LinearOrder γ] (l : List γ) :
    (uniqueSorted l).length = l.toFinset.card := by
  rw [← List.toFinset_card_of_nodup (nodup_uniqueSorted l)]
  congr 1
  ext a
  simp [List.mem_toFinset, mem_uniqueSorted]

/-- Recoding a column with `np.unique(..., return_inverse=True)` keeps its
number of distinct levels. -/
lemma uniqueSorted_length_npUniqueInv {γ : Type} [LinearOrder γ] (l : List γ) :
    (uniqueSorted (npUniqueInv l)).length = (uniqueSorted l).length := by
  rw [uniqueSorted_length_eq_card, uniqueSorted_length_eq_card, npUniqueInv]
  have himg : (l.map (fun x => List.indexOf x (uniqueSorted l))).toFinset =
      l.toFinset.image (fun x => List.indexOf x (uniqueSorted l)) := by
    ext a
    simp [List.mem_toFinset, List.mem_map, Finset.mem_image]
  rw [himg]
  apply Finset.card_image_of_injOn
  intro x hx y hy hxy
  exact (List.indexOf_inj
    ((mem_uniqueSorted l x).mpr (List.mem_toFinset.mp hx))
    ((mem_uniqueSorted l y).mpr (List.mem_toFinset.mp hy))).mp hxy

lemma npHstack_rows (A : Mat α) (ms : List (Mat α)) :
    (npHstack (A :: ms)).rows = A.rows := by
  cases ms with
  | nil => rfl
  | cons B rest => rfl

lemma npHstack_cols (ms : List (Mat α)) :
    (npHstack ms).cols = (ms.map Mat.cols).sum := by
  induction ms with
  | nil => rfl
  | cons A rest ih =>
    cases rest with
    | nil => simp [npHstack]
    | cons B rest2 =>
      rw [List.map_cons, List.sum_cons, ← ih]
      rfl

/-- Entry of an `np.hstack` at an offset that falls inside block `k`: it is
the corresponding entry of block `k`. -/
lemma npHstack_entry (ms : List (Mat α)) :
    ∀ (k : ℕ), k < ms.length → ∀ i t, t < (ms.getD k zeroMat).cols →
    (npHstack ms).entry i ((((ms.take k).map Mat.cols).sum) + t) =
      (ms.getD k zeroMat).entry i t := by
  induction ms with
  | nil =>
    intro k hk
    exact absurd hk (Nat.not_lt_zero k)
  | cons A rest ih =>
    intro k hk i t ht
    cases k with
    | zero =>
      simp only [List.take_zero, List.map_nil, List.sum_nil, Nat.zero_add]
      cases rest with
      | nil => rfl
      | cons B rest2 =>
        have ht2 : t < A.cols := ht
        show (hstack2 A (npHstack (B :: rest2))).entry i t = A.entry i t
        rw [hstack2]
        exact if_pos ht2
    | succ k2 =>
      cases rest with
      | nil => exact absurd hk (by simp)
      | cons B rest2 =>
        have hk2 : k2 < (B :: rest2).length := Nat.lt_of_succ_lt_succ hk
        have ht2 : t < ((B :: rest2).getD k2 zeroMat).cols := ht
        have hrec := ih k2 hk2 i t ht2
        rw [List.take_succ_cons, List.map_cons, List.sum_cons, Nat.add_assoc]
        show (hstack2 A (npHstack (B :: rest2))).entry i
            (A.cols + ((((B :: rest2).take k2).map Mat.cols).sum + t)) =
          ((B :: rest2).getD k2 zeroMat).entry i t
        rw [hstack2]
        dsimp only
        rw [if_neg (by omega), Nat.add_sub_cancel_left]
        exact hrec

lemma getD_map_of_lt {γ δ : Type} (f : γ → δ) (l : List γ) (k : ℕ) (d : δ)
    (d2 : γ) (h : k < l.length) : (l.map f).getD k d = f (l.getD k d2) := by
  rw [List.getD_eq_getElem _ _ (by simpa using h), List.getElem_map,
    List.getD_eq_getElem _ _ h]

lemma batchOneHot_cols (Y : List (List α)) (b : ℕ) :
    (batchOneHot Y b).cols = (uniqueSorted (getCol Y b)).length :=
  uniqueSorted_length_npUniqueInv (getCol Y b)

lemma catOneHot_cols (Y : List (List α)) (c : ℕ) :
    (catOneHot Y c).cols = (uniqueSorted (getCol Y c)).length - 1 := by
  show (uniqueSorted (npUniqueInv (getCol Y c))).length - 1 = _
  rw [uniqueSorted_length_npUniqueInv]

lemma numColumn_cols (Y : List (List α)) (c : ℕ) : (numColumn Y c).cols = 1 := rfl

/-- C4: `make_design_matrix` returns a matrix of shape `(S, B + C)` with
`C = (sum of (levels - 1) over discrete covariates) + (count of continuous
covariates)`; columns `0..B-1` are the full one-hot encoding of the batch
column with no level dropped; each discrete covariate contributes its one-hot
encoding with the first column dropped; and the column order is exactly batch
block, then discrete blocks in input order, then continuous columns in input
order. -/
theorem make_design_matrix_spec (Y : List (List α)) (batch_col : ℕ)
    (cat_cols num_cols : List ℕ) :
    (make_design_matrix Y batch_col cat_cols num_cols).rows = Y.length ∧
    (make_design_matrix Y batch_col cat_cols num_cols).cols =
      (uniqueSorted (getCol Y batch_col)).length +
        (((cat_cols.map (fun c => (uniqueSorted (getCol Y c)).length - 1)).sum) +
          num_cols.length) ∧
    (∀ i j, j < (uniqueSorted (getCol Y batch_col)).length →
      (make_design_matrix Y batch_col cat_cols num_cols).entry i j =
        if (npUniqueInv (getCol Y batch_col)).getD i 0 = j then 1 else 0) ∧
    (∀ k, k < cat_cols.length → ∀ i t,
      t < (uniqueSorted (getCol Y (cat_cols.getD k 0))).length - 1 →
      (make_design_matrix Y batch_col cat_cols num_cols).entry i
          ((uniqueSorted (getCol Y batch_col)).length +
            ((cat_cols.take k).map
              (fun c => (uniqueSorted (getCol Y c)).length - 1)).sum + t) =
        if (npUniqueInv (getCol Y (cat_cols.getD k 0))).getD i 0 = t + 1
          then 1 else 0) ∧
    (∀ k, k < num_cols.length → ∀ i,
      (make_design_matrix Y batch_col cat_cols num_cols).entry i
          ((uniqueSorted (getCol Y batch_col)).length +
            ((cat_cols.map
              (fun c => (uniqueSorted (getCol Y c)).length - 1)).sum) + k) =
        (getCol Y (num_cols.getD k 0)).getD i 0) := by
  refine ⟨?_, ?_, ?_, ?_, ?_⟩
  · rw [make_design_matrix, List.singleton_append, List.cons_append,
      npHstack_rows]
    simp [batchOneHot, to_categorical, npUniqueInv, getCol]
  · rw [make_design_matrix, npHstack_cols, List.map_append, List.map_append,
      List.sum_append, List.sum_append, List.map_map, List.map_map,
      show cat_cols.map (Mat.cols ∘ catOneHot Y) =
        cat_cols.map (fun c => (uniqueSorted (getCol Y c)).length - 1) from
        List.map_congr_left (fun c _ => catOneHot_cols Y c),
      show num_cols.map (Mat.cols ∘ numColumn Y) =
        num_cols.map (fun _ => 1) from List.map_congr_left (fun c _ => rfl)]
    simp [batchOneHot_cols]
    omega
  · intro i j hj
    have h := npHstack_entry
      ([batchOneHot Y batch_col] ++ cat_cols.map (catOneHot Y) ++
        num_cols.map (numColumn Y)) 0 (by simp) i j
      (by show j < (batchOneHot Y batch_col).cols
          rw [batchOneHot_cols]
          exact hj)
    rw [List.take_zero, List.map_nil, List.sum_nil, Nat.zero_add] at h
    exact h
  · intro k hk i t ht
    set ms := [batchOneHot Y batch_col] ++ cat_cols.map (catOneHot Y) ++
      num_cols.map (numColumn Y) with hms
    have hk1 : k + 1 < ms.length := by
      simp only [hms, List.length_append, List.length_map, List.length_cons,
        List.length_nil]
      omega
    have hgd : ms.getD (k + 1) zeroMat = catOneHot Y (cat_cols.getD k 0) := by
      show (cat_cols.map (catOneHot Y) ++ num_cols.map (numColumn Y)).getD k
        zeroMat = _
      rw [List.getD_append _ _ _ _ (by simpa using hk)]
      exact getD_map_of_lt (catOneHot Y) cat_cols k zeroMat 0 hk
    have hbd : t < (ms.getD (k + 1) zeroMat).cols := by
      rw [hgd, catOneHot_cols]
      exact ht
    have h := npHstack_entry ms (k + 1) hk1 i t hbd
    have hoff : ((ms.take (k + 1)).map Mat.cols).sum =
        (uniqueSorted (getCol Y batch_col)).length +
          ((cat_cols.take k).map
            (fun c => (uniqueSorted (getCol Y c)).length - 1)).sum := by
      have htake : ms.take (k + 1) =
          batchOneHot Y batch_col :: (cat_cols.map (catOneHot Y)).take k := by
        show (batchOneHot Y batch_col ::
          (cat_cols.map (catOneHot Y) ++ num_cols.map (numColumn Y))).take
            (k + 1) = _
        rw [List.take_succ_cons,
          List.take_append_of_le_length (by simpa using le_of_lt hk)]
      rw [htake, List.map_cons, List.sum_cons, batchOneHot_cols,
        ← List.map_take, List.map_map,
        show (cat_cols.take k).map (Mat.cols ∘ catOneHot Y) =
          (cat_cols.take k).map
            (fun c => (uniqueSorted (getCol Y c)).length - 1) from
          List.map_congr_left (fun c _ => catOneHot_cols Y c)]
    rw [hoff, hgd] at h
    exact h
  · intro k hk i
    set ms := [batchOneHot Y batch_col] ++ cat_cols.map (catOneHot Y) ++
      num_cols.map (numColumn Y) with hms
    have hk1 : cat_cols.length + k + 1 < ms.length := by
      simp only [hms, List.length_append, List.length_map, List.length_cons,
        List.length_nil]
      omega
    have hgd : ms.getD (cat_cols.length + k + 1) zeroMat =
        numColumn Y (num_cols.getD k 0) := by
      show (cat_cols.map (catOneHot Y) ++ num_cols.map (numColumn Y)).getD
        (cat_cols.length + k) zeroMat = _
      rw [List.getD_append_right _ _ _ _ (by simp)]
      rw [show cat_cols.length + k - (cat_cols.map (catOneHot Y)).length = k
        from by simp]
      exact getD_map_of_lt (numColumn Y) num_cols k zeroMat 0 hk
    have hbd : 0 < (ms.getD (cat_cols.length + k + 1) zeroMat).cols := by
      rw [hgd]
      exact Nat.one_pos
    have h := npHstack_entry ms (cat_cols.length + k + 1) hk1 i 0 hbd
    have hoff : ((ms.take (cat_cols.length + k + 1)).map Mat.cols).sum =
        (uniqueSorted (getCol Y batch_col)).length +
          (cat_cols.map
            (fun c => (uniqueSorted (getCol Y c)).length - 1)).sum + k := by
      have htake : ms.take (cat_cols.length + k + 1) =
          batchOneHot Y batch_col ::
            (cat_cols.map (catOneHot Y) ++ (num_cols.map (numColumn Y)).take k) := by
        show (batchOneHot Y batch_col ::
          (cat_cols.map (catOneHot Y) ++ num_cols.map (numColumn Y))).take
            (cat_cols.length + k + 1) = _
        rw [List.take_succ_cons]
        congr 1
        rw [show cat_cols.length + k =
          (cat_cols.map (catOneHot Y)).length + k from by simp, List.take_append]
      rw [htake, List.map_cons, List.sum_cons, List.map_append, List.sum_append,
        batchOneHot_cols, List.map_map, ← List.map_take, List.map_map,
        show cat_cols.map (Mat.cols ∘ catOneHot Y) =
          cat_cols.map (fun c => (uniqueSorted (getCol Y c)).length - 1) from
          List.map_congr_left (fun c _ => catOneHot_cols Y c),
        show (num_cols.take k).map (Mat.cols ∘ numColumn Y) =
          (num_cols.take k).map (fun _ => 1) from
          List.map_congr_left (fun c _ => rfl)]
      have hone : ((num_cols.take k).map (fun _ => (1 : ℕ))).sum = k := by
        simp [List.length_take, Nat.min_eq_left (le_of_lt hk)]
      rw [hone, Nat.add_assoc]
    rw [Nat.add_zero] at h
    rw [hoff, hgd] at h
    exact h

/-- The solver loop only returns a pair produced by one `g`/`d` update step
whose code-metric `changeOf` is at or below `conv`. -/
lemma itSolGo_exit (sdat : Mat α) (g_hat : List α) (g_bar t2 a b conv n : α) :
    ∀ (fuel : ℕ) (g_old d_old g d : List α),
      itSolGo sdat g_hat g_bar t2 a b conv n fuel g_old d_old = some (g, d) →
      ∃ gp dp, g = gStep g_hat g_bar t2 n dp sdat.rows ∧
        d = dStep sdat n a b g ∧ changeOf gp dp g d ≤ conv := by
  intro fuel
  induction fuel with
  | zero =>
    intro g_old d_old g d h
    exact absurd h (by simp [itSolGo])
  | succ k ih =>
    intro g_old d_old g d h
    simp only [itSolGo] at h
    split at h
    next hch => exact ih _ _ g d h
    next hch =>
      obtain ⟨h1, h2⟩ := Prod.mk.inj (Option.some.inj h)
      subst h1
      subst h2
      exact ⟨g_old, d_old, rfl, rfl, not_lt.mp hch⟩

/-- C3 (amended): `it_sol` returns only when the code's convergence metric —
the maximum over features of `max(|g_new-g_old|/g_old, |d_new-d_old|/d_old)`,
with absolute values in the numerators only — is at or below the tolerance
after the last update performed, and the loop runs again whenever that metric
exceeds the tolerance. -/
theorem it_sol_convergence (fuel : ℕ) (sdat : Mat α) (g_hat d_hat : List α)
    (g_bar t2 a b conv : α) :
    (∀ g d, it_sol fuel sdat g_hat d_hat g_bar t2 a b conv = some (g, d) →
      ∃ gp dp, g = gStep g_hat g_bar t2 (sdat.cols : α) dp sdat.rows ∧
        d = dStep sdat (sdat.cols : α) a b g ∧ changeOf gp dp g d ≤ conv) ∧
    (∀ (k : ℕ) (g_old d_old : List α),
      conv < changeOf g_old d_old (gStep g_hat g_bar t2 (sdat.cols : α) d_old sdat.rows)
          (dStep sdat (sdat.cols : α) a b (gStep g_hat g_bar t2 (sdat.cols : α) d_old sdat.rows)) →
      itSolGo sdat g_hat g_bar t2 a b conv (sdat.cols : α) (k + 1) g_old d_old =
        itSolGo sdat g_hat g_bar t2 a b conv (sdat.cols : α) k
          (gStep g_hat g_bar t2 (sdat.cols : α) d_old sdat.rows)
          (dStep sdat (sdat.cols : α) a b (gStep g_hat g_bar t2 (sdat.cols : α) d_old sdat.rows))) := by
  constructor
  · intro g d h
    unfold it_sol at h
    split at h
    next =>
      exact itSolGo_exit sdat g_hat g_bar t2 a b conv (sdat.cols : α) fuel
        g_hat d_hat g d h
    next => exact absurd h (by simp)
  · intro k g_old d_old hch
    simp only [itSolGo]
    rw [if_pos hch]

section RatEval

attribute [local semireducible] Rat.add Rat.mul Rat.inv Rat.sub

set_option maxRecDepth 100000

theorem combat_output_shape_witness :
    resultShape (combat (fun x : ℚ => x) 10 shapeWitnessData
        (.df shapeWitnessCovars) "batch" (.listArg []) (.listArg [])) =
      some (4, 2) :=
  combat_output_shape (fun x : ℚ => x) 10 shapeWitnessData
    (.df shapeWitnessCovars) "batch" (.listArg []) (.listArg []) (by decide)

/-- C3 counterexample: at this input the solver exits on its very first
iteration (so the last iteration's old values are `g_hat = [-1]`,
`d_hat = [1]`) and returns `([-1/3], [1])`, yet the metric described by the
claim — with absolute values in the denominators too — equals `2/3`, far
above the tolerance `1/10000`. -/
theorem it_sol_convergence_counterexample :
    it_sol 5 (⟨1, 2, fun _ _ => -1/3⟩ : Mat ℚ) [-1] [1] 1 1 2 2 (1/10000) =
      some ([-1/3], [1]) ∧
    itSolGo (⟨1, 2, fun _ _ => -1/3⟩ : Mat ℚ) [-1] 1 1 2 2 (1/10000) 2 1 [-1] [1] =
      some ([-1/3], [1]) ∧
    specChangeMetric ([-1] : List ℚ) [1] [-1/3] [1] = 2/3 ∧
    ¬ (specChangeMetric ([-1] : List ℚ) [1] [-1/3] [1] ≤ 1/10000) := by
  refine ⟨?_, ?_, ?_, ?_⟩ <;> decide

theorem batch_info_partition_witness :
    (batchPartition ([5, 3, 5] : List ℚ)).countP (fun l' => decide (2 ∈ l')) = 1 ∧
    ∀ l' ∈ batchPartition ([5, 3, 5] : List ℚ), ∀ i ∈ l',
      i < ([5, 3, 5] : List ℚ).length :=
  batch_info_partition [5, 3, 5] 2 (by decide)

theorem covars_not_mutated_witness :
    (combatCovarsSteps (⟨1, fun _ => [[1], [2]]⟩ : Heap ℚ) 0 0).2.mem 0 =
      (⟨1, fun _ => [[1], [2]]⟩ : Heap ℚ).mem 0 ∧
    (combatCovarsSteps (⟨1, fun _ => [[1], [2]]⟩ : Heap ℚ) 0 0).1 ≠ 0 :=
  covars_not_mutated ⟨1, fun _ => [[1], [2]]⟩ 0 0 (by decide)

theorem singleton_batch_validation_witness :
    combat (fun x : ℚ => x) 5 shapeWitnessData (.df singletonWitnessCovars)
      "site" (.listArg []) (.listArg []) = .error .singletonBatch :=
  (singleton_batch_validation (fun x : ℚ => x) 5 shapeWitnessData
    singletonWitnessCovars "site" (.listArg []) (.listArg []) 0 rfl
    (by decide) (by decide) (by decide) ⟨1, by decide, by decide⟩).2

theorem string_cols_split_to_chars_witness :
    normalizeCols (.strArg "age") = "age".toList.map (fun c => Char.toString c) ∧
    combat (fun x : ℚ => x) 5 shapeWitnessData (.df lookupWitnessCovars)
      "batch" (.strArg "age") (.listArg []) = .error .indexError ∧
    combat (fun x : ℚ => x) 5 shapeWitnessData (.df lookupWitnessCovars)
      "batch" (.listArg ["age"]) (.strArg "age") = .error .indexError := by
  obtain ⟨h1, h2, h3⟩ := string_cols_split_to_chars (fun x : ℚ => x) 5
    shapeWitnessData lookupWitnessCovars "batch" "age" 0 rfl (by decide)
    (by decide)
  exact ⟨h1, h2 (.listArg []), h3 (.listArg ["age"]) (by decide)⟩

theorem make_design_matrix_spec_witness :
    (make_design_matrix designWitnessY 0 [1] [2]).rows = 4 ∧
    (make_design_matrix designWitnessY 0 [1] [2]).cols = 5 ∧
    ((make_design_matrix designWitnessY 0 [1] [2]).entry 1 1 =
      if (npUniqueInv (getCol designWitnessY 0)).getD 1 0 = 1 then 1 else 0) ∧
    ((make_design_matrix designWitnessY 0 [1] [2]).entry 1
        ((uniqueSorted (getCol designWitnessY 0)).length +
          ((([1] : List ℕ).take 0).map
            (fun c => (uniqueSorted (getCol designWitnessY c)).length - 1)).sum + 0) =
      if (npUniqueInv (getCol designWitnessY 1)).getD 1 0 = 0 + 1 then 1 else 0) ∧
    ((make_design_matrix designWitnessY 0 [1] [2]).entry 3
        ((uniqueSorted (getCol designWitnessY 0)).length +
          (([1] : List ℕ).map
            (fun c => (uniqueSorted (getCol designWitnessY c)).length - 1)).sum + 0) =
      (getCol designWitnessY 2).getD 3 0) := by
  obtain ⟨h1, h2, h3, h4, h5⟩ := make_design_matrix_spec designWitnessY 0 [1] [2]
  exact ⟨h1, h2.trans (by decide), h3 1 1 (by decide),
    h4 0 (by decide) 1 0 (by decide), h5 0 (by decide) 3⟩

theorem it_sol_convergence_witness :
    (∃ gp dp, ([-1/3] : List ℚ) = gStep [-1] 1 1 2 dp 1 ∧
      ([1] : List ℚ) = dStep (⟨1, 2, fun _ _ => -1/3⟩ : Mat ℚ) 2 2 2 [-1/3] ∧
      changeOf gp dp [-1/3] [1] ≤ 1/10000) ∧
    itSolGo (⟨1, 2, fun _ _ => -1/3⟩ : Mat ℚ) [-1] 1 1 2 2 (1/10000) 2 (0 + 1) [-4] [5] =
      itSolGo (⟨1, 2, fun _ _ => -1/3⟩ : Mat ℚ) [-1] 1 1 2 2 (1/10000) 2 0
        (gStep [-1] 1 1 2 [5] 1)
        (dStep (⟨1, 2, fun _ _ => -1/3⟩ : Mat ℚ) 2 2 2 (gStep [-1] 1 1 2 [5] 1)) :=
  ⟨(it_sol_convergence 5 (⟨1, 2, fun _ _ => -1/3⟩ : Mat ℚ) [-1] [1] 1 1 2 2
      (1/10000)).1 [-1/3] [1] (by decide),
   (it_sol_convergence 5 (⟨1, 2, fun _ _ => -1/3⟩ : Mat ℚ) [-1] [1] 1 1 2 2
      (1/10000)).2 0 [-4] [5] (by decide)⟩

end RatEval

end NeuroCombat
